import Mathlib

set_option maxHeartbeats 1600000

/-!
Verification of the playlist-sorting backend (sort engine, job admission,
undo log, scheduler recurrence) against a shallow embedding of its code.

Conventions used throughout:
* Python dicts fetched from the remote API are modelled by structures whose
  optional JSON fields are `Option`-typed; `dict.get` with a default becomes
  `Option.getD`, and Python string-truthiness (`value or default`) becomes
  an explicit test against `""`.
* Python's `sorted(xs, key=k, reverse=r)` is a stable sort driven by `<` on
  keys; it is embedded as `List.mergeSort` (Lean's verified stable sort)
  with the boolean relation `not (k b < k a)` (ascending) resp.
  `not (k a < k b)` (descending), which agrees with CPython's stable
  ascending / stable descending behaviour.
* `str.lower()` is modelled by `Char.toLower` on each character (ASCII
  lowercasing); the claims proved here are insensitive to the exact
  lowercasing function, which only influences which permutation is the
  target order.
-/

/-- A playlist track as assembled by `_run_sort_job`: the fields of the
`track` object that `get_sort_key_function` / the sort strategies read.
`artists` holds the `name` field of each artist dict (`none` when the dict
has no name). Missing JSON keys are `none` / `[]`. -/
structure Track where
  id : String
  uri : String
  name : Option String := none
  artists : List (Option String) := []
  albumName : Option String := none
  albumReleaseDate : Option String := none
  addedAt : Option String := none
  durationMs : Option Nat := none
deriving DecidableEq, Repr, Inhabited

/-- Python `value or default` for strings: `""` is falsy. -/
def pyOr (v d : String) : String := if v = "" then d else v

/-- ASCII model of Python `str.lower()`. -/
def strLower (s : String) : String := s.map Char.toLower

/-- The `sort_by` values accepted by `get_sort_key_function`. -/
inductive SortField
  | title | artist | album | release_date | date_added | duration
deriving DecidableEq, Repr

/-- A sort key is either a string (title/artist/album/release_date/date_added)
or a number (duration); one `sort_by` value always produces one shape. -/
inductive SKey
  | str (s : String)
  | num (n : Nat)
deriving DecidableEq, Repr

/-- The key extractors of `get_sort_key_function`, including the `safe_get`
defaults: text fields default to `""` and are lowercased, `release_date`
defaults to `"0000-00-00"`, `added_at` to `"1970-01-01T00:00:00Z"`,
`duration_ms` to `0`. -/
def sort_key : SortField → Track → SKey
  | .title, t => .str (strLower (t.name.getD ""))
  | .artist, t =>
    .str (match t.artists with
          | [] => ""
          | a :: _ => strLower (a.getD ""))
  | .album, t => .str (strLower (t.albumName.getD ""))
  | .release_date, t => .str (pyOr (t.albumReleaseDate.getD "") "0000-00-00")
  | .date_added, t => .str (pyOr (t.addedAt.getD "") "1970-01-01T00:00:00Z")
  | .duration, t => .num (t.durationMs.getD 0)

/-- Python `<` on sort keys (keys of one field never mix shapes; the mixed
cases are given an arbitrary fixed answer). -/
def skeyLt : SKey → SKey → Bool
  | .str a, .str b => decide (a < b)
  | .num a, .num b => decide (a < b)
  | .str _, .num _ => true
  | .num _, .str _ => false

/-- The comparison `sorted(..., key=key_func, reverse=reverse)` sorts by:
stable ascending keeps `a` before `b` iff `not (key b < key a)`; with
`reverse=True` CPython produces the stable descending order, i.e. keeps `a`
before `b` iff `not (key a < key b)`. -/
def track_le (field : SortField) (reverse : Bool) (a b : Track) : Bool :=
  if reverse then !skeyLt (sort_key field a) (sort_key field b)
  else !skeyLt (sort_key field b) (sort_key field a)

/-- `reverse = (direction == 'desc')` in `get_sort_key_function`. -/
def sortReverse (direction : String) : Bool := direction == "desc"

/-- `sorted_tracks = sorted(tracks, key=key_func, reverse=reverse)`:
the target ordering produced by the stable sort on the sort key. -/
def target_order (tracks : List Track) (field : SortField) (direction : String) : List Track :=
  tracks.mergeSort (track_le field (sortReverse direction))

/-- The pair relation used when sorting `indexed_tracks` in
`sort_playlist_preserve_dates`: tuples `(i, track)` compare by their track
component only (the Python tuples carry the key in the third slot). -/
def indexed_le (field : SortField) (reverse : Bool) (a b : Nat × Track) : Bool :=
  track_le field reverse a.2 b.2

/-- `sorted_indexed = sorted(indexed_tracks, key=lambda x: x[2], reverse=reverse)`
where `indexed_tracks = [(i, track, key(track)) for i, track in enumerate(tracks)]`
(the key slot is dropped here since it is a function of the track). -/
def sorted_indexed (tracks : List Track) (field : SortField) (direction : String) :
    List (Nat × Track) :=
  tracks.enum.mergeSort (indexed_le field (sortReverse direction))

/-- `calculate_moves_needed`: count of positions where current and sorted
track ids differ (Python `zip` truncates to the shorter list). -/
def calculate_moves_needed (current_order sorted_order : List Track) : Nat :=
  ((current_order.zip sorted_order).filter (fun p => p.1.id ≠ p.2.id)).length

/-- `moves_needed = sum(1 for i, (orig_idx, _, _) in enumerate(sorted_indexed) if orig_idx != i)`
in `sort_playlist_preserve_dates`, with `i` threaded explicitly. -/
def misplaced_count : Nat → List (Nat × Track) → Nat
  | _, [] => 0
  | i, (o, _) :: rest => (if o ≠ i then 1 else 0) + misplaced_count (i + 1) rest

/-- The move-emitting loop of `sort_playlist_preserve_dates` (no
cancellation signalled): for each target position `p`, look up where the
original index `o` currently sits (`c = current_positions.index(o)`); if it
is out of place, emit the move `(range_start == c, insert_before)` and
update `current_positions` by `pop(c)` / `insert(p, o)`. -/
def preserve_loop : List Nat → Nat → List Nat → List (Nat × Nat)
  | [], _, _ => []
  | o :: rest, p, cur =>
    if cur.indexOf o = p then preserve_loop rest (p + 1) cur
    else (cur.indexOf o, if p < cur.indexOf o then p else p + 1) ::
      preserve_loop rest (p + 1) ((cur.eraseIdx (cur.indexOf o)).insertIdx p o)

/-- The complete sequence of `sp.playlist_reorder_items` calls issued by
`sort_playlist_preserve_dates` (each pair is `(range_start, insert_before)`,
`range_length` is always 1); the function returns before moving anything
when `moves_needed == 0`. -/
def preserve_moves (tracks : List Track) (field : SortField) (direction : String) :
    List (Nat × Nat) :=
  let si := sorted_indexed tracks field direction
  if misplaced_count 0 si = 0 then []
  else preserve_loop (si.map Prod.fst) 0 (List.range tracks.length)

/-- Remote semantics of `playlist_reorder_items(range_start, insert_before,
range_length=1)`: remove the item at `range_start`, then insert it before
the position `insert_before` referred to the pre-removal list (so positions
after the removed item shift left by one). Out-of-range `range_start` is a
remote error, modelled as a no-op. -/
def playlist_reorder_one {α : Type} (l : List α) (range_start insert_before : Nat) : List α :=
  match l[range_start]? with
  | none => l
  | some x =>
    (l.eraseIdx range_start).insertIdx
      (if insert_before ≤ range_start then insert_before else insert_before - 1) x

/-- Replaying a sequence of `(range_start, insert_before)` moves against a
model of the remote order. -/
def apply_moves {α : Type} (l : List α) (moves : List (Nat × Nat)) : List α :=
  moves.foldl (fun acc m => playlist_reorder_one acc m.1 m.2) l

/-- Python truthiness of an optional snapshot string (`None` and `""` are falsy). -/
def pyTruthy : Option String → Bool
  | none => false
  | some s => s ≠ ""

/-- `original_order = [t.get("uri") for t in tracks if t.get("uri")]` in
`_run_sort_job` (a missing uri is modelled as `""`, which is equally falsy). -/
def original_order_of (tracks : List Track) : List String :=
  (tracks.filter (fun t => t.uri ≠ "")).map (·.uri)

/-- One row of `playlist_operations` as read back by `get_latest_operation`:
the payload dict is represented by the two reversal fields the undo handler
reads (`removed_items` as `(uri, position)` pairs, `original_order` as the
full pre-mutation uri sequence); a missing payload key is the empty list. -/
structure Operation where
  opId : Nat
  opType : String
  snapshotAfter : Option String := none
  originalOrder : List String := []
  removedItems : List (String × Nat) := []
deriving DecidableEq, Repr

/-- HTTP outcome of the undo route. -/
inductive UndoResponse
  | notFound                -- 404: no undoable operation
  | conflict                -- 409: snapshot mismatch
  | badRequest              -- 400: missing reversal data / unsupported type
  | ok (restored : Nat)     -- success
deriving DecidableEq, Repr

/-- Result of an undo request: the HTTP response, the remote playlist order
(uri sequence) afterwards, and the id of the operation marked undone (if any). -/
structure UndoResult where
  response : UndoResponse
  remote : List String
  markedUndone : Option Nat
deriving DecidableEq, Repr

/-- The batched replay of `sort_reorder` undo (also the shape of the `fast`
strategy): `playlist_replace_items` with the first batch of 100, then
`playlist_add_items` with each further batch of 100. The accumulator is the
remote order after the calls so far. -/
def add_in_batches (acc rest : List String) : List String :=
  match rest with
  | [] => acc
  | x :: r => add_in_batches (acc ++ (x :: r).take 100) ((x :: r).drop 100)
termination_by rest.length
decreasing_by simp only [List.length_drop, List.length_cons]; omega

/-- `undo_last_operation` (routes/playlists.py): `latest` is what
`get_latest_operation` returned (already filtered to non-expired, not
undone, `changes_made=1`), `liveSnapshot` is the freshly fetched
`snapshot_id`, `remote` is the current remote uri order. -/
def undo_last_operation (latest : Option Operation) (liveSnapshot : Option String)
    (remote : List String) : UndoResult :=
  match latest with
  | none => ⟨.notFound, remote, none⟩
  | some op =>
    if pyTruthy op.snapshotAfter && pyTruthy liveSnapshot &&
        liveSnapshot != op.snapshotAfter then
      ⟨.conflict, remote, none⟩
    else if op.opType = "duplicates_remove" then
      if op.removedItems = [] then ⟨.badRequest, remote, none⟩
      else
        -- insert back in ascending position order (stable sort by position);
        -- entries with a falsy uri are skipped
        let items := op.removedItems.mergeSort (fun a b => !decide (b.2 < a.2))
        let remote' := items.foldl
          (fun acc it => if it.1 = "" then acc else acc.insertIdx it.2 it.1) remote
        ⟨.ok op.removedItems.length, remote', some op.opId⟩
    else if op.opType = "sort_reorder" then
      if op.originalOrder = [] then ⟨.badRequest, remote, none⟩
      else
        ⟨.ok op.originalOrder.length,
          add_in_batches (op.originalOrder.take 100) (op.originalOrder.drop 100),
          some op.opId⟩
    else ⟨.badRequest, remote, none⟩

/-- The remote order (as tracks) after `_run_sort_job` executes the selected
strategy against a playlist currently in `tracks` order: `fast` replaces the
playlist with the sorted order, `preserve` replays its move sequence. -/
def sort_job_remote (tracks : List Track) (field : SortField) (direction method : String) :
    List Track :=
  if method = "fast" then target_order tracks field direction
  else apply_moves tracks (preserve_moves tracks field direction)

/-- `changes_made = tracks_to_move > 0` recorded by `_run_sort_job`, where
`tracks_to_move = calculate_moves_needed(tracks, sorted_tracks)`. -/
def sort_job_changes_made (tracks : List Track) (field : SortField) (direction : String) :
    Bool :=
  0 < calculate_moves_needed tracks (target_order tracks field direction)

/-- The `sort_reorder` operation row `_run_sort_job` records on completion
(when `changes_made`), as later fetched by `get_latest_operation`; when no
changes were made the row has `changes_made=0` and `get_latest_operation`
skips it, so the undo route sees no operation. -/
def sort_job_recorded_op (tracks : List Track) (field : SortField) (direction : String)
    (opId : Nat) (snapshotAfter : Option String) : Option Operation :=
  if sort_job_changes_made tracks field direction then
    some ⟨opId, "sort_reorder", snapshotAfter, original_order_of tracks, []⟩
  else none

/-- Round trip for C2: run a sort job (either strategy) on a playlist in
`tracks` order, then issue an undo. Nothing touches the playlist in
between, so the live snapshot equals the recorded `snapshot_after`. The
result is the final remote uri sequence. -/
def sort_then_undo_remote (tracks : List Track) (field : SortField)
    (direction method : String) : List String :=
  let afterSort := (sort_job_remote tracks field direction method).map (·.uri)
  let op := sort_job_recorded_op tracks field direction 1 (some "snap-after")
  (undo_last_operation op (some "snap-after") afterSort).remote

/-- Job statuses of the `sort_jobs` table. -/
inductive JobStatus
  | pending | in_progress | completed | failed | cancelled
deriving DecidableEq, Repr

/-- Whether a status counts as active (`status IN ('pending','in_progress')`). -/
def JobStatus.isActive : JobStatus → Bool
  | .pending => true
  | .in_progress => true
  | _ => false

/-- One row of `sort_jobs` (times in seconds since the epoch). -/
structure SortJob where
  jobId : String
  playlistId : String
  userId : String
  status : JobStatus
  startedAt : Nat
  updatedAt : Nat
  completedAt : Option Nat := none
  total : Nat := 0
  error : Option String := none
  message : Option String := none
deriving DecidableEq, Repr

/-- `SortJobService.get_user_active_job_count`. -/
def get_user_active_job_count (db : List SortJob) (userId : String) : Nat :=
  (db.filter (fun j => j.userId = userId && j.status.isActive)).length

/-- Stale-pending timeout (seconds) by playlist size, from
`get_active_job_for_playlist`: 2/5/10/15 minutes for <100/<500/<1000/else. -/
def pending_timeout_secs (total : Nat) : Nat :=
  if total < 100 then 2 * 60
  else if total < 500 then 5 * 60
  else if total < 1000 then 10 * 60
  else 15 * 60

/-- `UPDATE` performed on a job found stuck in pending. -/
def mark_timed_out (now : Nat) (jobId : String) (j : SortJob) : SortJob :=
  if j.jobId = jobId then
    { j with status := .failed,
             error := some "Job timed out - did not start within expected timeframe",
             message := some "Job failed to start",
             updatedAt := now, completedAt := some now }
  else j

/-- The row selected by `SELECT ... WHERE playlist_id = ? AND status IN
('pending','in_progress') ORDER BY started_at DESC LIMIT 1`: the active job
with the greatest `started_at` (ties resolved to the earliest row, one
deterministic refinement of the unspecified SQL tie order). -/
def latest_active_row (db : List SortJob) (playlistId : String) : Option SortJob :=
  (db.filter (fun j => j.playlistId = playlistId && j.status.isActive)).foldl
    (fun best j =>
      match best with
      | none => some j
      | some b => if b.startedAt < j.startedAt then some j else some b)
    none

/-- `SortJobService.get_active_job_for_playlist`: returns the latest active
job, except that a pending job older than its size-based timeout is marked
failed (persisted via the returned store) and `None` is returned. -/
def get_active_job_for_playlist (db : List SortJob) (now : Nat) (playlistId : String) :
    Option SortJob × List SortJob :=
  match latest_active_row db playlistId with
  | none => (none, db)
  | some j =>
    if j.status = .pending && pending_timeout_secs j.total < now - j.startedAt then
      (none, db.map (mark_timed_out now j.jobId))
    else (some j, db)

/-- `SortJobService.create_job`: inserts a fresh `pending` row. -/
def create_job (db : List SortJob) (now : Nat) (jobId playlistId userId : String)
    (totalTracks : Nat) : List SortJob :=
  db ++ [{ jobId := jobId, playlistId := playlistId, userId := userId,
           status := .pending, startedAt := now, updatedAt := now,
           total := totalTracks, message := some "Sort job created" }]

/-- Outcome of the `start_sort` route's admission logic. -/
inductive StartSortOutcome
  | limitRejected (activeCount : Nat)       -- per-user limit hit, no job row touched
  | existingJob (jobId : String) (status : JobStatus)  -- active job returned instead
  | created (jobId : String)                -- new pending job created and started
deriving DecidableEq, Repr

/-- Admission logic of `start_sort` (routes/sort.py): per-user limit of
`MAX_CONCURRENT_JOBS = 2` active jobs, then per-playlist exclusivity,
then job creation. -/
def start_sort (db : List SortJob) (now : Nat) (userId playlistId : String)
    (freshJobId : String) (totalTracks : Nat) : StartSortOutcome × List SortJob :=
  let activeCount := get_user_active_job_count db userId
  if 2 ≤ activeCount then (.limitRejected activeCount, db)
  else
    match get_active_job_for_playlist db now playlistId with
    | (some j, db') => (.existingJob j.jobId j.status, db')
    | (none, db') => (.created freshJobId, create_job db' now freshJobId playlistId userId totalTracks)

/-- Provenance metadata passed by the scheduler to `start_sort_job`
(`meta={"source": "scheduled", "schedule_id": schedule_id}`). -/
structure JobMeta where
  source : Option String := none
  scheduleId : Option Nat := none
deriving DecidableEq, Repr

/-- Outcome of `SchedulerService._run_sort_schedule`. -/
inductive ScheduleSortOutcome
  | skippedActive                                -- job already active for playlist & same owner
  | submitted (jobId : String) (meta : JobMeta)  -- job created and handed to the executor
deriving DecidableEq, Repr

/-- `SchedulerService._run_sort_schedule`: skips when an active job for the
playlist belongs to the schedule's owner; otherwise creates a job directly
via `SortJobService.create_job` (no per-user limit check) and starts it
with scheduled-run provenance. -/
def run_sort_schedule (db : List SortJob) (now : Nat) (playlistId userId : String)
    (scheduleId : Nat) (freshJobId : String) (totalTracks : Nat) :
    ScheduleSortOutcome × List SortJob :=
  match get_active_job_for_playlist db now playlistId with
  | (some j, db') =>
    if j.userId = userId then (.skippedActive, db')
    else (.submitted freshJobId ⟨some "scheduled", some scheduleId⟩,
          create_job db' now freshJobId playlistId userId totalTracks)
  | (none, db') =>
    (.submitted freshJobId ⟨some "scheduled", some scheduleId⟩,
     create_job db' now freshJobId playlistId userId totalTracks)

/-- The `UPDATE` of `SortJobService.recover_interrupted_jobs` applied to one
row: every pending/in-progress job is marked failed with the
restart-interruption error and its timestamps set. -/
def recover_one (now : Nat) (j : SortJob) : SortJob :=
  if j.status.isActive then
    { j with status := .failed,
             error := some "Service restarted while job was running",
             message := some "Job interrupted by service restart",
             updatedAt := now, completedAt := some now }
  else j

/-- `SortJobService.recover_interrupted_jobs`, run from the app lifespan on
process startup. -/
def recover_interrupted_jobs (now : Nat) (db : List SortJob) : List SortJob :=
  db.map (recover_one now)

/-- A naive Python `datetime` truncated to minute precision (`_compute_next_run`
zeroes seconds/microseconds in every anchor it builds, and every comparison
it makes is insensitive to the dropped sub-minute part of the base).
The year is unbounded; Python restricts it to 1..9999 and raises
`OverflowError`/`ValueError` outside, where this model simply keeps
extending the proleptic Gregorian calendar. -/
structure PyDateTime where
  year : Int
  month : Int
  day : Int
  hour : Int
  minute : Int
deriving DecidableEq, Repr

/-- Gregorian leap year, with Python `%` (floor mod, equal to `Int.emod`
for the positive divisors used). -/
def isLeap (y : Int) : Bool := y % 4 = 0 && (y % 100 ≠ 0 || y % 400 = 0)

/-- Days in a month of the proleptic Gregorian calendar. -/
def daysInMonth (y m : Int) : Int :=
  if m = 2 then (if isLeap y then 29 else 28)
  else if m = 4 || m = 6 || m = 9 || m = 11 then 30
  else 31

/-- CPython's `_DAYS_BEFORE_MONTH` (non-leap days before the month). -/
def daysBeforeMonth (m : Int) : Int :=
  if m ≤ 1 then 0
  else if m = 2 then 31
  else if m = 3 then 59
  else if m = 4 then 90
  else if m = 5 then 120
  else if m = 6 then 151
  else if m = 7 then 181
  else if m = 8 then 212
  else if m = 9 then 243
  else if m = 10 then 273
  else if m = 11 then 304
  else 334

/-- CPython's `_ymd2ord`: proleptic Gregorian ordinal of the date
(0001-01-01 has ordinal 1). -/
def toOrdinal (y m d : Int) : Int :=
  365 * (y - 1) + (y - 1) / 4 - (y - 1) / 100 + (y - 1) / 400 +
    daysBeforeMonth m + (if 2 < m && isLeap y then 1 else 0) + d

/-- Absolute minute count of a datetime — the chronological order that
Python's `datetime` comparison implements on (normalised) datetimes. -/
def absMinutes (t : PyDateTime) : Int :=
  1440 * toOrdinal t.year t.month t.day + 60 * t.hour + t.minute

/-- A normalised datetime as Python's `datetime` maintains it. -/
def PyValid (t : PyDateTime) : Prop :=
  1 ≤ t.month ∧ t.month ≤ 12 ∧ 1 ≤ t.day ∧ t.day ≤ daysInMonth t.year t.month ∧
    0 ≤ t.hour ∧ t.hour ≤ 23 ∧ 0 ≤ t.minute ∧ t.minute ≤ 59

instance (t : PyDateTime) : Decidable (PyValid t) := by
  unfold PyValid; infer_instance

/-- Python `datetime` comparison (chronological; on normalised datetimes it
coincides with field-lexicographic comparison). -/
def dtLe (a b : PyDateTime) : Bool := absMinutes a ≤ absMinutes b

/-- Advance one calendar day (`timedelta(days=1)` normalisation). -/
def addDays1 (t : PyDateTime) : PyDateTime :=
  if t.day + 1 ≤ daysInMonth t.year t.month then { t with day := t.day + 1 }
  else if t.month + 1 ≤ 12 then { t with month := t.month + 1, day := 1 }
  else { t with year := t.year + 1, month := 1, day := 1 }

/-- Step one calendar day back. -/
def subDays1 (t : PyDateTime) : PyDateTime :=
  if 1 ≤ t.day - 1 then { t with day := t.day - 1 }
  else if 1 ≤ t.month - 1 then
    { t with month := t.month - 1, day := daysInMonth t.year (t.month - 1) }
  else { t with year := t.year - 1, month := 12, day := 31 }

def addDaysN : Nat → PyDateTime → PyDateTime
  | 0, t => t
  | n + 1, t => addDaysN n (addDays1 t)

def subDaysN : Nat → PyDateTime → PyDateTime
  | 0, t => t
  | n + 1, t => subDaysN n (subDays1 t)

/-- Shift a datetime by a (possibly negative) whole number of days. -/
def shiftDays (k : Int) (t : PyDateTime) : PyDateTime :=
  if 0 ≤ k then addDaysN k.toNat t else subDaysN (-k).toNat t

/-- `t + timedelta(minutes=m)`: normalise the minute total within the day
and carry whole days (Python timedelta arithmetic on naive datetimes). -/
def addMinutes (m : Int) (t : PyDateTime) : PyDateTime :=
  let tot := 60 * t.hour + t.minute + m
  let q := tot / 1440
  let r := tot % 1440
  shiftDays q { t with hour := r / 60, minute := r % 60 }

/-- `dow_map` of `_compute_next_run` (`.get(dow, 0)`). -/
def dow_map (s : String) : Int :=
  if s = "mon" then 0
  else if s = "tue" then 1
  else if s = "wed" then 2
  else if s = "thu" then 3
  else if s = "fri" then 4
  else if s = "sat" then 5
  else if s = "sun" then 6
  else 0

/-- Python `date.weekday()`: Monday is 0 (ordinal 1 = 0001-01-01 is a Monday). -/
def pyWeekday (t : PyDateTime) : Int := (toOrdinal t.year t.month t.day - 1) % 7

/-- The recurrence parameters `_compute_next_run` reads out of
`schedule["params"]` / `schedule["frequency_minutes"]`, already coerced the
way the code coerces them (`int(...)`, `.lower()`, defaults applied). -/
structure ScheduleParams where
  schedule_type : String := "daily"
  hour_of_day : Int := 9
  day_of_week : String := "mon"
  day_of_month : Int := 1
  timezone_offset_minutes : Int := 0
  frequency_minutes : Int := 1440
deriving Repr

/-- The `daily` branch of `_compute_next_run`: advance one day if the anchor
is not strictly after the logical-local now. -/
def daily_next (target0 baseLocal : PyDateTime) : PyDateTime :=
  if dtLe target0 baseLocal then addDays1 target0 else target0

/-- The `weekly` branch of `_compute_next_run`: `days_ahead = (wanted -
weekday) % 7`, forced to 7 on an exact same-day-and-past-hour match. -/
def weekly_next (dow : String) (target0 baseLocal : PyDateTime) : PyDateTime :=
  let wanted := dow_map dow
  let daysAhead := (wanted - pyWeekday target0) % 7
  let daysAhead := if daysAhead = 0 && dtLe target0 baseLocal then 7 else daysAhead
  addDaysN daysAhead.toNat target0

/-- The `monthly` branch of `_compute_next_run`: clamp the day to
`max(1, min(day_of_month, 28))`, roll to the following month when the
anchor has already passed; each `replace(...)` guards against an invalid
day (the `except` fallback to day 1, unreachable because of the clamp). -/
def monthly_next (dom : Int) (target0 baseLocal : PyDateTime) : PyDateTime :=
  let day := max 1 (min dom 28)
  let candidate :=
    if 1 ≤ day && day ≤ daysInMonth target0.year target0.month then
      { target0 with day := day }
    else { target0 with day := 1 }
  if dtLe candidate baseLocal then
    let y2 := if target0.month = 12 then target0.year + 1 else target0.year
    let m2 := if target0.month = 12 then 1 else target0.month + 1
    if 1 ≤ day && day ≤ daysInMonth y2 m2 then
      { candidate with year := y2, month := m2, day := day }
    else { candidate with year := y2, month := m2, day := 1 }
  else candidate

/-- `_compute_next_run` (db/schedules.py): compute the next run datetime
from `base` (the `from_time`). Returns `none` when `replace(hour=...)`
would raise (`hour_of_day` outside 0..23), which in the code propagates as
an exception and produces no next-run value. -/
def compute_next_run (p : ScheduleParams) (base : PyDateTime) : Option PyDateTime :=
  let baseLocal := addMinutes p.timezone_offset_minutes base
  if p.hour_of_day < 0 || 23 < p.hour_of_day then none
  else
    let target0 : PyDateTime := { baseLocal with hour := p.hour_of_day, minute := 0 }
    let targetLocal :=
      if p.schedule_type = "daily" then daily_next target0 baseLocal
      else if p.schedule_type = "weekly" then weekly_next p.day_of_week target0 baseLocal
      else if p.schedule_type = "monthly" then monthly_next p.day_of_month target0 baseLocal
      else addMinutes p.frequency_minutes baseLocal
    some (addMinutes (-p.timezone_offset_minutes) targetLocal)

/-! ## Theorems -/

/-! ### List surgery helpers -/

theorem insertIdx_eq_take_cons_drop {α : Type} (a : α) :
    ∀ (p : Nat) (l : List α), p ≤ l.length →
      l.insertIdx p a = l.take p ++ a :: l.drop p
  | 0, _, _ => rfl
  | p + 1, [], h => by simp at h
  | p + 1, x :: l, h => by
    simp only [List.insertIdx_succ_cons, List.take_succ_cons, List.drop_succ_cons,
      List.cons_append, List.cons.injEq, true_and]
    exact insertIdx_eq_take_cons_drop a p l (by simpa using h)

theorem insertIdx_perm_cons {α : Type} (a : α) (p : Nat) (l : List α) (h : p ≤ l.length) :
    (l.insertIdx p a).Perm (a :: l) := by
  rw [insertIdx_eq_take_cons_drop a p l h]
  have h1 : (l.take p ++ a :: l.drop p).Perm (a :: (l.take p ++ l.drop p)) :=
    List.perm_middle
  rwa [List.take_append_drop] at h1

theorem perm_cons_eraseIdx {α : Type} (l : List α) (c : Nat) (h : c < l.length) :
    l.Perm (l[c] :: l.eraseIdx c) := by
  conv_lhs => rw [← List.take_append_drop c l, List.drop_eq_getElem_cons h]
  rw [List.eraseIdx_eq_take_drop_succ]
  exact List.perm_middle

theorem playlist_reorder_one_eq {α : Type} (l : List α) (c p : Nat) (h : c < l.length) :
    playlist_reorder_one l c (if p < c then p else p + 1) =
      (l.eraseIdx c).insertIdx p l[c] := by
  have hif : (if (if p < c then p else p + 1) ≤ c then (if p < c then p else p + 1)
      else (if p < c then p else p + 1) - 1) = p := by
    by_cases hpc : p < c
    · rw [if_pos hpc, if_pos (Nat.le_of_lt hpc)]
    · rw [if_neg hpc, if_neg (by omega)]
      omega
  simp only [playlist_reorder_one, List.getElem?_eq_getElem h, hif]

theorem apply_moves_nil {α : Type} (l : List α) : apply_moves l [] = l := rfl

theorem apply_moves_cons {α : Type} (l : List α) (m : Nat × Nat) (ms : List (Nat × Nat)) :
    apply_moves l (m :: ms) = apply_moves (playlist_reorder_one l m.1 m.2) ms := rfl

/-- Replaying the moves emitted by `preserve_loop` against the remote-order
model transforms `cur` (the current remote order, as original indices) into
`done ++ todo` (the target order): `done` is the already-placed prefix,
`todo` the remaining target indices, and `cur` agrees with `done` on its
first `done.length` positions. -/
theorem preserve_loop_correct :
    ∀ (todo done cur : List Nat),
      cur.Perm (done ++ todo) → cur.take done.length = done →
      (done ++ todo).Nodup →
      apply_moves cur (preserve_loop todo done.length cur) = done ++ todo
  | [], done, cur, hperm, hpre, _ => by
    rw [List.append_nil] at hperm ⊢
    have hlen : cur.length = done.length := hperm.length_eq
    rw [preserve_loop, apply_moves_nil, ← hpre, ← hlen, List.take_length]
  | o :: rest, done, cur, hperm, hpre, hnodup => by
    have ho_mem : o ∈ cur := hperm.mem_iff.2 (by simp)
    have hc_lt : cur.indexOf o < cur.length := List.indexOf_lt_length.2 ho_mem
    have hget : cur[cur.indexOf o] = o := List.getElem_indexOf hc_lt
    have ho_not_done : o ∉ done := fun hmem =>
      (List.disjoint_of_nodup_append hnodup) hmem (by simp)
    have hp_le : done.length ≤ cur.indexOf o := by
      by_contra hlt
      push_neg at hlt
      apply ho_not_done
      have hin : cur[cur.indexOf o] ∈ cur.take done.length := by
        have hlt' : cur.indexOf o < (cur.take done.length).length := by
          simp only [List.length_take]
          omega
        have := @List.getElem_take _ cur done.length (cur.indexOf o) hlt'
        rw [← this]
        exact List.getElem_mem _
      rwa [hpre, hget] at hin
    by_cases hcp : cur.indexOf o = done.length
    · -- already in place: no move emitted
      rw [preserve_loop, if_pos hcp]
      have htake : cur.take (done.length + 1) = done ++ [o] := by
        have hq : cur[done.length]? = some o := by
          have hx := List.getElem?_indexOf ho_mem
          rwa [hcp] at hx
        rw [List.take_succ, hpre, hq]
        rfl
      have happ : (done ++ [o]) ++ rest = done ++ o :: rest := by
        rw [List.append_assoc, List.singleton_append]
      have := preserve_loop_correct rest (done ++ [o]) cur
        (by rwa [happ]) (by rwa [List.length_append, List.length_singleton])
        (by rwa [happ])
      rw [List.length_append, List.length_singleton] at this
      rw [this, happ]
    · -- out of place: one move emitted, tracking array updated
      have hpc : done.length < cur.indexOf o := lt_of_le_of_ne hp_le (Ne.symm hcp)
      rw [preserve_loop, if_neg hcp, apply_moves_cons]
      rw [playlist_reorder_one_eq cur (cur.indexOf o) done.length hc_lt, hget]
      have hlen_erase : (cur.eraseIdx (cur.indexOf o)).length = cur.length - 1 :=
        List.length_eraseIdx_of_lt hc_lt
      have hp_le' : done.length ≤ (cur.eraseIdx (cur.indexOf o)).length := by omega
      have hperm' : ((cur.eraseIdx (cur.indexOf o)).insertIdx done.length o).Perm
          ((done ++ [o]) ++ rest) := by
        have h1 : cur.Perm (o :: cur.eraseIdx (cur.indexOf o)) := by
          have := perm_cons_eraseIdx cur (cur.indexOf o) hc_lt
          rwa [hget] at this
        have h2 : ((cur.eraseIdx (cur.indexOf o)).insertIdx done.length o).Perm
            (o :: cur.eraseIdx (cur.indexOf o)) :=
          insertIdx_perm_cons o done.length _ hp_le'
        refine h2.trans (h1.symm.trans ?_)
        rw [List.append_assoc, List.singleton_append]
        exact hperm
      have htake' : ((cur.eraseIdx (cur.indexOf o)).insertIdx done.length o).take
          (done.length + 1) = done ++ [o] := by
        rw [insertIdx_eq_take_cons_drop o done.length _ hp_le']
        rw [List.take_append_eq_append_take]
        have hxl : ((cur.eraseIdx (cur.indexOf o)).take done.length).length
            = done.length := List.length_take_of_le hp_le'
        rw [List.take_of_length_le (by omega), hxl]
        have : done.length + 1 - done.length = 1 := by omega
        rw [this]
        have htk : (cur.eraseIdx (cur.indexOf o)).take done.length = done := by
          rw [List.eraseIdx_eq_take_drop_succ, List.take_append_eq_append_take]
          have hcl : (cur.take (cur.indexOf o)).length = cur.indexOf o :=
            List.length_take_of_le (Nat.le_of_lt hc_lt)
          rw [hcl]
          have h0 : done.length - cur.indexOf o = 0 := by omega
          rw [h0, List.take_zero, List.append_nil, List.take_take]
          rw [Nat.min_eq_left (Nat.le_of_lt hpc)]
          exact hpre
        rw [htk]
        rfl
      have happ : (done ++ [o]) ++ rest = done ++ o :: rest := by
        rw [List.append_assoc, List.singleton_append]
      have := preserve_loop_correct rest (done ++ [o])
        ((cur.eraseIdx (cur.indexOf o)).insertIdx done.length o)
        hperm' (by rwa [List.length_append, List.length_singleton])
        (by rwa [happ])
      rw [List.length_append, List.length_singleton] at this
      rw [this, happ]

theorem map_insertIdx_comm {α β : Type} (f : α → β) (a : α) :
    ∀ (p : Nat) (l : List α), (l.insertIdx p a).map f = (l.map f).insertIdx p (f a)
  | 0, _ => rfl
  | _ + 1, [] => rfl
  | p + 1, x :: l => by
    simp only [List.insertIdx_succ_cons, List.map_cons, List.cons.injEq, true_and]
    exact map_insertIdx_comm f a p l

theorem map_eraseIdx_comm {α β : Type} (f : α → β) :
    ∀ (l : List α) (i : Nat), (l.eraseIdx i).map f = (l.map f).eraseIdx i
  | [], _ => rfl
  | _ :: _, 0 => rfl
  | x :: l, i + 1 => by
    simp only [List.eraseIdx_cons_succ, List.map_cons, List.cons.injEq, true_and]
    exact map_eraseIdx_comm f l i

theorem playlist_reorder_one_map {α β : Type} (f : α → β) (l : List α) (a b : Nat) :
    playlist_reorder_one (l.map f) a b = (playlist_reorder_one l a b).map f := by
  unfold playlist_reorder_one
  rw [List.getElem?_map]
  cases h : l[a]? with
  | none => simp
  | some x =>
    simp only [Option.map_some']
    rw [← map_eraseIdx_comm, ← map_insertIdx_comm]

theorem apply_moves_map {α β : Type} (f : α → β) :
    ∀ (ms : List (Nat × Nat)) (l : List α),
      apply_moves (l.map f) ms = (apply_moves l ms).map f
  | [], _ => rfl
  | m :: ms, l => by
    rw [apply_moves_cons, apply_moves_cons, playlist_reorder_one_map, apply_moves_map f ms]

/-! ### Facts about the sorted index list -/

theorem sorted_indexed_perm_enum (tracks : List Track) (field : SortField)
    (direction : String) :
    (sorted_indexed tracks field direction).Perm tracks.enum :=
  List.mergeSort_perm _ _

theorem enum_map_snd_eq (tracks : List Track) : tracks.enum.map Prod.snd = tracks :=
  List.enumFrom_map_snd 0 tracks

theorem enum_map_fst_eq (tracks : List Track) :
    tracks.enum.map Prod.fst = List.range tracks.length := by
  rw [List.range_eq_range']
  exact List.enumFrom_map_fst 0 tracks

/-- The stability bridge: projecting the sorted indexed list onto its track
component gives exactly the plain stable sort of the tracks. -/
theorem sorted_indexed_map_snd (tracks : List Track) (field : SortField)
    (direction : String) :
    (sorted_indexed tracks field direction).map Prod.snd =
      target_order tracks field direction := by
  unfold sorted_indexed target_order
  rw [show (tracks.enum.mergeSort (indexed_le field (sortReverse direction))).map Prod.snd
      = (tracks.enum.map Prod.snd).mergeSort (track_le field (sortReverse direction)) from
    List.map_mergeSort (fun _ _ _ _ => rfl), enum_map_snd_eq]

theorem mem_sorted_indexed_lookup (tracks : List Track) (field : SortField)
    (direction : String) {x : Nat × Track}
    (hx : x ∈ sorted_indexed tracks field direction) :
    tracks[x.1]? = some x.2 := by
  have hmem : x ∈ tracks.enum :=
    (sorted_indexed_perm_enum tracks field direction).subset hx
  exact List.mem_enum_iff_getElem?.1 hmem

theorem misplaced_count_zero_fst :
    ∀ (l : List (Nat × Track)) (i k : Nat) (hk : k < l.length),
      misplaced_count i l = 0 → (l[k]).1 = i + k
  | [], _, k, hk, _ => absurd hk (by simp)
  | (o, t) :: rest, i, 0, _, h => by
    simp only [misplaced_count] at h
    by_cases ho : o = i
    · simpa using ho
    · rw [if_pos ho] at h
      omega
  | (o, t) :: rest, i, k + 1, hk, h => by
    simp only [misplaced_count] at h
    have hrest : misplaced_count (i + 1) rest = 0 := by omega
    have := misplaced_count_zero_fst rest (i + 1) k (by simpa using hk) hrest
    simpa [Nat.add_comm, Nat.add_assoc, Nat.add_left_comm] using this

theorem misplaced_zero_eq_enum (tracks : List Track) (field : SortField)
    (direction : String)
    (h : misplaced_count 0 (sorted_indexed tracks field direction) = 0) :
    sorted_indexed tracks field direction = tracks.enum := by
  have hperm := sorted_indexed_perm_enum tracks field direction
  have hlen : (sorted_indexed tracks field direction).length = tracks.enum.length :=
    hperm.length_eq
  apply List.ext_getElem hlen
  intro k hk1 hk2
  have hfst : ((sorted_indexed tracks field direction)[k]).1 = k := by
    simpa using misplaced_count_zero_fst _ 0 k hk1 h
  have hmem : (sorted_indexed tracks field direction)[k] ∈
      sorted_indexed tracks field direction := List.getElem_mem _
  have hlook := mem_sorted_indexed_lookup tracks field direction hmem
  rw [hfst] at hlook
  have hk3 : k < tracks.length := by simpa [List.enum_length] using hk2
  have henumk : tracks.enum[k] = (k, tracks[k]) :=
    List.getElem_enum _ _ hk2
  rw [henumk]
  have hsnd : ((sorted_indexed tracks field direction)[k]).2 = tracks[k] := by
    rw [List.getElem?_eq_getElem hk3] at hlook
    exact (Option.some.inj hlook).symm
  exact Prod.ext hfst hsnd

/-- Shared core result: replaying the `preserve` move sequence against the
remote-order model reaches the stable-sorted target order. -/
theorem preserve_replay_eq_target_order (tracks : List Track) (field : SortField)
    (direction : String) :
    apply_moves tracks (preserve_moves tracks field direction) =
      target_order tracks field direction := by
  unfold preserve_moves
  by_cases h0 : misplaced_count 0 (sorted_indexed tracks field direction) = 0
  · rw [if_pos h0, apply_moves_nil, ← sorted_indexed_map_snd,
      misplaced_zero_eq_enum tracks field direction h0, enum_map_snd_eq]
  · rw [if_neg h0]
    have hfstperm : ((sorted_indexed tracks field direction).map Prod.fst).Perm
        (List.range tracks.length) := by
      have := (sorted_indexed_perm_enum tracks field direction).map Prod.fst
      rwa [enum_map_fst_eq] at this
    have hnodup : ((sorted_indexed tracks field direction).map Prod.fst).Nodup :=
      hfstperm.nodup_iff.2 (List.nodup_range _)
    have hmain := preserve_loop_correct
      ((sorted_indexed tracks field direction).map Prod.fst) [] (List.range tracks.length)
      (by simpa using hfstperm.symm) (by simp) (by simpa using hnodup)
    simp only [List.nil_append, List.length_nil] at hmain
    have hlookup : tracks = (List.range tracks.length).map
        (fun i => (tracks[i]?).getD default) := by
      apply List.ext_getElem (by simp)
      intro k h1 h2
      simp only [List.getElem_map, List.getElem_range]
      rw [List.getElem?_eq_getElem (by simpa using h1)]
      rfl
    have happly : ∀ ms, apply_moves tracks ms =
        (apply_moves (List.range tracks.length) ms).map
          (fun i => (tracks[i]?).getD default) := by
      intro ms
      conv_lhs => rw [hlookup]
      rw [apply_moves_map]
    rw [happly, hmain, List.map_map]
    rw [← sorted_indexed_map_snd tracks field direction]
    apply List.map_congr_left
    intro x hx
    have := mem_sorted_indexed_lookup tracks field direction hx
    simp only [Function.comp_apply, this, Option.getD_some]

/-! ### Totality and transitivity of the sort comparison -/

theorem skeyLt_asymm : ∀ a b : SKey, skeyLt a b = true → skeyLt b a = true → False
  | .str a, .str b, h1, h2 => by
    simp only [skeyLt, decide_eq_true_eq] at h1 h2
    exact lt_asymm h1 h2
  | .num a, .num b, h1, h2 => by
    simp only [skeyLt, decide_eq_true_eq] at h1 h2
    omega
  | .str _, .num _, _, h2 => by simp [skeyLt] at h2
  | .num _, .str _, h1, _ => by simp [skeyLt] at h1

theorem skeyLt_resolve :
    ∀ a b c : SKey, skeyLt c a = true → skeyLt b a = true ∨ skeyLt c b = true
  | .str a, .str b, .str c, h => by
    simp only [skeyLt, decide_eq_true_eq] at h ⊢
    rcases lt_or_le b a with hb | hb
    · exact Or.inl hb
    · exact Or.inr (lt_of_lt_of_le h hb)
  | .num a, .num b, .num c, h => by
    simp only [skeyLt, decide_eq_true_eq] at h ⊢
    omega
  | .str _, .num _, .str _, _ => by simp [skeyLt]
  | .str _, .str _, .num _, h => by simp [skeyLt] at h
  | .str _, .num _, .num _, h => by simp [skeyLt] at h
  | .num _, .str _, .num _, _ => by simp [skeyLt]
  | .num _, .str _, .str _, _ => by simp [skeyLt]
  | .num _, .num _, .str _, _ => by simp [skeyLt]

theorem notLt_total (x y : SKey) : (!skeyLt x y || !skeyLt y x) = true := by
  cases hxy : skeyLt x y with
  | false => simp
  | true =>
    cases hyx : skeyLt y x with
    | false => simp
    | true => exact absurd hyx (fun h => skeyLt_asymm x y hxy h)

theorem notLt_trans (x y z : SKey) :
    (!skeyLt y x) = true → (!skeyLt z y) = true → (!skeyLt z x) = true := by
  intro h1 h2
  simp only [Bool.not_eq_true'] at h1 h2 ⊢
  cases h : skeyLt z x with
  | false => rfl
  | true =>
    exfalso
    rcases skeyLt_resolve x y z h with hy | hz
    · rw [h1] at hy; exact Bool.noConfusion hy
    · rw [h2] at hz; exact Bool.noConfusion hz

theorem track_le_total (field : SortField) (reverse : Bool) (a b : Track) :
    (track_le field reverse a b || track_le field reverse b a) = true := by
  unfold track_le
  cases reverse
  · simpa using notLt_total (sort_key field b) (sort_key field a)
  · simpa using notLt_total (sort_key field a) (sort_key field b)

theorem track_le_trans (field : SortField) (reverse : Bool) (a b c : Track) :
    track_le field reverse a b → track_le field reverse b c →
      track_le field reverse a c := by
  unfold track_le
  cases reverse
  · intro h1 h2
    rw [if_neg (by simp)] at h1 h2 ⊢
    exact notLt_trans (sort_key field a) (sort_key field b) (sort_key field c) h1 h2
  · intro h1 h2
    rw [if_pos rfl] at h1 h2 ⊢
    exact notLt_trans (sort_key field c) (sort_key field b) (sort_key field a) h2 h1

/-! ### C5: already-sorted playlists -/

theorem misplaced_count_enumFrom (l : List Track) :
    ∀ i, misplaced_count i (l.enumFrom i) = 0 := by
  induction l with
  | nil => intro i; rfl
  | cons x l ih =>
    intro i
    simp [List.enumFrom_cons, misplaced_count, ih (i + 1)]

theorem misplaced_count_enum (l : List Track) : misplaced_count 0 l.enum = 0 :=
  misplaced_count_enumFrom l 0

theorem calculate_moves_needed_self (l : List Track) : calculate_moves_needed l l = 0 := by
  induction l with
  | nil => rfl
  | cons x l ih =>
    unfold calculate_moves_needed at ih ⊢
    rw [List.zip_cons_cons, List.filter_cons_of_neg (by simp)]
    exact ih

theorem sorted_indexed_of_sorted (tracks : List Track) (field : SortField)
    (direction : String)
    (h : tracks.Pairwise (fun a b => track_le field (sortReverse direction) a b = true)) :
    sorted_indexed tracks field direction = tracks.enum := by
  unfold sorted_indexed
  apply List.mergeSort_of_sorted
  have h2 : (tracks.enum.map Prod.snd).Pairwise
      (fun a b => track_le field (sortReverse direction) a b = true) := by
    rwa [enum_map_snd_eq]
  exact (List.pairwise_map.1 h2).imp (fun hab => hab)

/-- C5. A playlist already in target order under the chosen field and
direction: the `preserve` strategy issues zero remote move calls, and the
operation row recorded by the completed job carries `changes_made = false`
(`get_latest_operation` therefore never offers it for undo). -/
theorem C5_already_sorted_zero_moves (tracks : List Track) (field : SortField)
    (direction : String)
    (h : target_order tracks field direction = tracks) :
    preserve_moves tracks field direction = [] ∧
      sort_job_changes_made tracks field direction = false := by
  have hsorted : tracks.Pairwise
      (fun a b => track_le field (sortReverse direction) a b = true) := by
    have hs := @List.sorted_mergeSort Track (track_le field (sortReverse direction))
      (track_le_trans field (sortReverse direction))
      (fun a b => track_le_total field (sortReverse direction) a b) tracks
    unfold target_order at h
    rwa [h] at hs
  constructor
  · unfold preserve_moves
    rw [sorted_indexed_of_sorted tracks field direction hsorted]
    rw [if_pos (misplaced_count_enum tracks)]
  · unfold sort_job_changes_made
    rw [h, calculate_moves_needed_self]
    simp

/-- Witness for C5 at a concrete, already-sorted two-track playlist. -/
theorem C5_already_sorted_zero_moves_witness :
    (target_order [{ id := "a", uri := "u:a", durationMs := some 10 },
                   { id := "b", uri := "u:b", durationMs := some 20 }] .duration "asc" =
      [{ id := "a", uri := "u:a", durationMs := some 10 },
       { id := "b", uri := "u:b", durationMs := some 20 }]) ∧
    (preserve_moves [{ id := "a", uri := "u:a", durationMs := some 10 },
                     { id := "b", uri := "u:b", durationMs := some 20 }] .duration "asc" = [] ∧
     sort_job_changes_made [{ id := "a", uri := "u:a", durationMs := some 10 },
                            { id := "b", uri := "u:b", durationMs := some 20 }] .duration "asc"
        = false) := by
  have h : target_order [{ id := "a", uri := "u:a", durationMs := some 10 },
      { id := "b", uri := "u:b", durationMs := some 20 }] .duration "asc" =
      [{ id := "a", uri := "u:a", durationMs := some 10 },
       { id := "b", uri := "u:b", durationMs := some 20 }] := by
    simp [target_order, List.mergeSort, track_le, sort_key, skeyLt, sortReverse,
      List.merge]
  exact ⟨h, C5_already_sorted_zero_moves _ _ _ h⟩

/-- C1. For every list of items (with the current remote order equal to the
input list) and every supported sort field and direction, executing the
`preserve` strategy's move sequence (each move `range_start = c`,
`range_length = 1`, `insert_before = p` if `p < c` else `p + 1`, applied to
a model of the remote order) transforms the remote order into exactly the
target order produced by the stable sort on the sort key. -/
theorem C1_preserve_replay_reaches_target (tracks : List Track) (field : SortField)
    (direction : String) :
    apply_moves tracks (preserve_moves tracks field direction) =
      target_order tracks field direction :=
  preserve_replay_eq_target_order tracks field direction

/-! ### C2: sort followed by undo -/

theorem add_in_batches_eq : ∀ (rest acc : List String), add_in_batches acc rest = acc ++ rest
  | [], acc => by simp [add_in_batches]
  | x :: r, acc => by
    rw [add_in_batches]
    rw [add_in_batches_eq ((x :: r).drop 100) (acc ++ (x :: r).take 100)]
    rw [List.append_assoc, List.take_append_drop]
termination_by rest _ => rest.length
decreasing_by simp only [List.length_drop, List.length_cons]; omega

theorem original_order_of_eq (tracks : List Track) (huri : ∀ t ∈ tracks, t.uri ≠ "") :
    original_order_of tracks = tracks.map (·.uri) := by
  unfold original_order_of
  rw [List.filter_eq_self.2 (fun t ht => by simpa using huri t ht)]

theorem calc_zero_ids (current sorted : List Track)
    (h : calculate_moves_needed current sorted = 0) :
    ∀ i (h1 : i < current.length) (h2 : i < sorted.length),
      (current[i]).id = (sorted[i]).id := by
  unfold calculate_moves_needed at h
  rw [List.length_eq_zero] at h
  intro i h1 h2
  have hz : i < (current.zip sorted).length := by
    rw [List.length_zip]; omega
  have hmem : (current[i], sorted[i]) ∈ current.zip sorted := by
    have hg : (current.zip sorted)[i] = (current[i], sorted[i]) :=
      List.getElem_zip
    rw [← hg]
    exact List.getElem_mem _
  have hno := List.filter_eq_nil_iff.1 h _ hmem
  simpa using hno

theorem target_order_map_uri (tracks : List Track) (field : SortField) (direction : String)
    (hcons : ∀ t ∈ tracks, ∀ t' ∈ tracks, t.id = t'.id → t.uri = t'.uri)
    (h0 : calculate_moves_needed tracks (target_order tracks field direction) = 0) :
    (target_order tracks field direction).map (·.uri) = tracks.map (·.uri) := by
  have hperm : (target_order tracks field direction).Perm tracks :=
    List.mergeSort_perm tracks _
  have hlen : (target_order tracks field direction).length = tracks.length :=
    hperm.length_eq
  apply List.ext_getElem (by simpa using hlen)
  intro i h1 h2
  simp only [List.getElem_map]
  have h1' : i < (target_order tracks field direction).length := by
    simpa using h1
  have h2' : i < tracks.length := by simpa using h2
  have hid := calc_zero_ids tracks (target_order tracks field direction) h0 i h2' h1'
  exact (hcons _ (hperm.subset (List.getElem_mem h1')) _ (List.getElem_mem h2')
    hid.symm)

/-- Shared core result for the round trip: the final remote uri sequence
after sort-then-undo equals the original uri sequence, for playlists whose
tracks all carry a uri and whose uri is a function of the track id. -/
theorem sort_then_undo_eq_original (tracks : List Track) (field : SortField)
    (direction method : String)
    (huri : ∀ t ∈ tracks, t.uri ≠ "")
    (hcons : ∀ t ∈ tracks, ∀ t' ∈ tracks, t.id = t'.id → t.uri = t'.uri) :
    sort_then_undo_remote tracks field direction method = tracks.map (·.uri) := by
  unfold sort_then_undo_remote sort_job_recorded_op
  by_cases hch : sort_job_changes_made tracks field direction = true
  · rw [if_pos hch]
    have htracks_ne : tracks ≠ [] := by
      intro hemp
      subst hemp
      simp [sort_job_changes_made, calculate_moves_needed, target_order] at hch
    have hoo : original_order_of tracks = tracks.map (·.uri) :=
      original_order_of_eq tracks huri
    have hne : original_order_of tracks ≠ [] := by
      rw [hoo]
      simpa using htracks_ne
    unfold undo_last_operation
    simp only [pyTruthy, bne_self_eq_false, Bool.and_false, Bool.false_eq_true,
      if_false, String.reduceEq, if_neg hne]
    rw [add_in_batches_eq, List.take_append_drop]
    exact hoo
  · rw [if_neg hch]
    have h0 : calculate_moves_needed tracks (target_order tracks field direction) = 0 := by
      by_contra hne0
      apply hch
      unfold sort_job_changes_made
      simpa using Nat.pos_of_ne_zero hne0
    show (sort_job_remote tracks field direction method).map (·.uri) = _
    unfold sort_job_remote
    by_cases hm : method = "fast"
    · rw [if_pos hm]
      exact target_order_map_uri tracks field direction hcons h0
    · rw [if_neg hm, preserve_replay_eq_target_order]
      exact target_order_map_uri tracks field direction hcons h0

/-- C2. Sort followed by undo restores the exact original order as a uri
(item-identity) sequence, for any playlist whose tracks all carry a uri,
with the uri determined by the track id (both automatic for real remote
items); covers both strategies, and in particular the empty, singleton,
already-sorted, reversed and duplicate-key cases. The undo replays the
recorded original ordering with the fast-strategy batching (first batch of
100 replaces, remaining batches append). -/
theorem C2_sort_undo_round_trip (tracks : List Track) (field : SortField)
    (direction method : String)
    (huri : ∀ t ∈ tracks, t.uri ≠ "")
    (hcons : ∀ t ∈ tracks, ∀ t' ∈ tracks, t.id = t'.id → t.uri = t'.uri) :
    sort_then_undo_remote tracks field direction method = tracks.map (·.uri) :=
  sort_then_undo_eq_original tracks field direction method huri hcons

/-- Witness for C2 on a concrete reversed two-track playlist sorted with the
`preserve` strategy. -/
theorem C2_sort_undo_round_trip_witness :
    (∀ t ∈ [{ id := "a", uri := "u:a", durationMs := some 20 },
             { id := "b", uri := "u:b", durationMs := some 10 }] , (Track.uri t) ≠ "") ∧
    (∀ t ∈ [{ id := "a", uri := "u:a", durationMs := some 20 },
            { id := "b", uri := "u:b", durationMs := some 10 }],
     ∀ t' ∈ [{ id := "a", uri := "u:a", durationMs := some 20 },
             { id := "b", uri := "u:b", durationMs := some 10 }],
       Track.id t = Track.id t' → Track.uri t = Track.uri t') ∧
    sort_then_undo_remote
        [{ id := "a", uri := "u:a", durationMs := some 20 },
         { id := "b", uri := "u:b", durationMs := some 10 }] .duration "asc" "preserve" =
      ["u:a", "u:b"] := by
  refine ⟨by decide, by decide, ?_⟩
  have h := C2_sort_undo_round_trip
    [{ id := "a", uri := "u:a", durationMs := some 20 },
     { id := "b", uri := "u:b", durationMs := some 10 }] .duration "asc" "preserve"
    (by decide) (by decide)
  rw [h]
  rfl

/-! ### C3 and C9: the undo conflict check -/

/-- C3. When the latest undoable operation exists and the live remote
version token is truthy, the stored `snapshot_after` is truthy, and the two
differ, undo returns the 409 conflict response, issues no remote-mutating
call (the remote order is returned unchanged), and does not mark the
operation undone. -/
theorem C3_undo_conflict_blocks (op : Operation) (live : Option String)
    (remote : List String)
    (h1 : pyTruthy op.snapshotAfter = true) (h2 : pyTruthy live = true)
    (h3 : live ≠ op.snapshotAfter) :
    undo_last_operation (some op) live remote =
      ⟨.conflict, remote, none⟩ := by
  simp only [undo_last_operation]
  rw [if_pos]
  simp only [h1, h2, Bool.true_and, bne_iff_ne, ne_eq]
  exact h3

/-- Witness for C3: a sort operation whose stored token is `"s1"` while the
live token is `"s2"`. -/
theorem C3_undo_conflict_blocks_witness :
    (pyTruthy (Operation.snapshotAfter ⟨1, "sort_reorder", some "s1", ["u:a"], []⟩) = true) ∧
    (pyTruthy (some "s2") = true) ∧
    ((some "s2" : Option String) ≠ some "s1") ∧
    undo_last_operation (some ⟨1, "sort_reorder", some "s1", ["u:a"], []⟩)
        (some "s2") ["u:x", "u:y"] =
      ⟨.conflict, ["u:x", "u:y"], none⟩ :=
  ⟨by decide, by decide, by decide,
    C3_undo_conflict_blocks ⟨1, "sort_reorder", some "s1", ["u:a"], []⟩
      (some "s2") ["u:x", "u:y"] (by decide) (by decide) (by decide)⟩

/-- C9 (implicit). Whenever the stored `snapshot_after` or the live token is
falsy (`None`/`""`), the optimistic-concurrency check is skipped entirely:
a `sort_reorder` undo proceeds to replace the remote order with the stored
original ordering and marks the operation undone, for any live token value
— including one that differs from the stored snapshot. -/
theorem C9_undo_skips_conflict_check_on_falsy_token (op : Operation)
    (live : Option String) (remote : List String)
    (htype : op.opType = "sort_reorder") (hne : op.originalOrder ≠ [])
    (hfalsy : pyTruthy op.snapshotAfter = false ∨ pyTruthy live = false) :
    undo_last_operation (some op) live remote =
      ⟨.ok op.originalOrder.length, op.originalOrder, some op.opId⟩ := by
  simp only [undo_last_operation]
  rw [if_neg (by rcases hfalsy with h | h <;> simp [h])]
  rw [if_neg (by rw [htype]; decide), if_pos htype, if_neg hne]
  rw [add_in_batches_eq, List.take_append_drop]

/-- Witness for C9: the stored token is the falsy `""`, the live token is a
truthy, different value, and the replay still runs. -/
theorem C9_undo_skips_conflict_check_on_falsy_token_witness :
    (Operation.opType ⟨7, "sort_reorder", some "", ["u:1", "u:2"], []⟩ = "sort_reorder") ∧
    (Operation.originalOrder ⟨7, "sort_reorder", some "", ["u:1", "u:2"], []⟩ ≠ []) ∧
    (pyTruthy (Operation.snapshotAfter ⟨7, "sort_reorder", some "", ["u:1", "u:2"], []⟩)
      = false) ∧
    undo_last_operation (some ⟨7, "sort_reorder", some "", ["u:1", "u:2"], []⟩)
        (some "live-token") ["u:2", "u:1"] =
      ⟨.ok 2, ["u:1", "u:2"], some 7⟩ :=
  ⟨by decide, by decide, by decide,
    C9_undo_skips_conflict_check_on_falsy_token ⟨7, "sort_reorder", some "", ["u:1", "u:2"], []⟩
      (some "live-token") ["u:2", "u:1"] (by decide) (by decide) (Or.inl (by decide))⟩

/-! ### C4, C7, C8: admission control, scheduler dispatch, crash recovery -/

theorem active_some_snd (db : List SortJob) (now : Nat) (playlistId : String)
    (j : SortJob) (h : (get_active_job_for_playlist db now playlistId).1 = some j) :
    get_active_job_for_playlist db now playlistId = (some j, db) := by
  unfold get_active_job_for_playlist at h ⊢
  split at h
  · simp_all
  · split at h <;> simp_all

/-- C4. Admission control of `start_sort`: a user at or over the two-active-
jobs limit is rejected with no job row created or modified; below the
limit, a (non-stale) active job for the target playlist is returned as-is
instead of creating a second job, again leaving the job store unchanged. -/
theorem C4_admission_control (db : List SortJob) (now : Nat)
    (userId playlistId freshJobId : String) (totalTracks : Nat) :
    (2 ≤ get_user_active_job_count db userId →
      start_sort db now userId playlistId freshJobId totalTracks =
        (.limitRejected (get_user_active_job_count db userId), db)) ∧
    (get_user_active_job_count db userId < 2 →
      ∀ j, (get_active_job_for_playlist db now playlistId).1 = some j →
        start_sort db now userId playlistId freshJobId totalTracks =
          (.existingJob j.jobId j.status, db)) := by
  constructor
  · intro h
    unfold start_sort
    rw [if_pos h]
  · intro h j hj
    unfold start_sort
    rw [if_neg (by omega), active_some_snd db now playlistId j hj]

/-- Witness for C4: a user with two running jobs is rejected; a playlist
with one running job returns that job. -/
theorem C4_admission_control_witness :
    (2 ≤ get_user_active_job_count
        [⟨"j1", "p1", "u", .in_progress, 0, 0, none, 10, none, none⟩,
         ⟨"j2", "p2", "u", .in_progress, 0, 0, none, 10, none, none⟩] "u" ∧
      start_sort
        [⟨"j1", "p1", "u", .in_progress, 0, 0, none, 10, none, none⟩,
         ⟨"j2", "p2", "u", .in_progress, 0, 0, none, 10, none, none⟩] 0 "u" "p3" "j3" 5 =
        (.limitRejected 2,
         [⟨"j1", "p1", "u", .in_progress, 0, 0, none, 10, none, none⟩,
          ⟨"j2", "p2", "u", .in_progress, 0, 0, none, 10, none, none⟩])) ∧
    (get_user_active_job_count
        [⟨"j1", "p1", "u", .in_progress, 0, 0, none, 10, none, none⟩] "u" < 2 ∧
      start_sort [⟨"j1", "p1", "u", .in_progress, 0, 0, none, 10, none, none⟩]
          0 "u" "p1" "j9" 5 =
        (.existingJob "j1" .in_progress,
         [⟨"j1", "p1", "u", .in_progress, 0, 0, none, 10, none, none⟩])) := by
  refine ⟨⟨by decide, ?_⟩, ⟨by decide, ?_⟩⟩
  · exact (C4_admission_control _ 0 "u" "p3" "j3" 5).1 (by decide)
  · exact (C4_admission_control _ 0 "u" "p1" "j9" 5).2 (by decide)
      ⟨"j1", "p1", "u", .in_progress, 0, 0, none, 10, none, none⟩ (by decide)

/-- C7 as stated is false on the code: the scheduler's `_run_sort_schedule`
does not go through `start_sort`'s admission path and never checks the
per-user two-active-jobs limit; here a user with two active jobs (whom
`start_sort` rejects) still gets a third job created by the scheduler. -/
theorem C7_scheduler_bypasses_user_limit_counterexample :
    get_user_active_job_count
      [⟨"j1", "p1", "u", .in_progress, 0, 0, none, 10, none, none⟩,
       ⟨"j2", "p2", "u", .in_progress, 0, 0, none, 10, none, none⟩] "u" = 2 ∧
    (start_sort
      [⟨"j1", "p1", "u", .in_progress, 0, 0, none, 10, none, none⟩,
       ⟨"j2", "p2", "u", .in_progress, 0, 0, none, 10, none, none⟩]
      0 "u" "p3" "j3" 5).1 = .limitRejected 2 ∧
    (run_sort_schedule
      [⟨"j1", "p1", "u", .in_progress, 0, 0, none, 10, none, none⟩,
       ⟨"j2", "p2", "u", .in_progress, 0, 0, none, 10, none, none⟩]
      0 "p3" "u" 11 "j3" 5).1 = .submitted "j3" ⟨some "scheduled", some 11⟩ ∧
    ((run_sort_schedule
      [⟨"j1", "p1", "u", .in_progress, 0, 0, none, 10, none, none⟩,
       ⟨"j2", "p2", "u", .in_progress, 0, 0, none, 10, none, none⟩]
      0 "p3" "u" 11 "j3" 5).2).length = 3 := by
  decide

/-- C7 amended: when the scheduler dispatches a due sort schedule, it skips
only when the playlist's active job belongs to the schedule's owner;
otherwise (no active job, or an active job of another user) it creates the
job directly — with no per-user active-jobs limit applied — and the
submission carries provenance `source="scheduled"` plus the schedule id. -/
theorem C7_scheduler_dispatch_amended (db : List SortJob) (now : Nat)
    (playlistId userId : String) (scheduleId : Nat) (freshJobId : String)
    (totalTracks : Nat) :
    (∀ j, (get_active_job_for_playlist db now playlistId).1 = some j →
      j.userId = userId →
      run_sort_schedule db now playlistId userId scheduleId freshJobId totalTracks =
        (.skippedActive, db)) ∧
    ((∀ j, (get_active_job_for_playlist db now playlistId).1 = some j →
        j.userId ≠ userId) →
      run_sort_schedule db now playlistId userId scheduleId freshJobId totalTracks =
        (.submitted freshJobId ⟨some "scheduled", some scheduleId⟩,
         create_job (get_active_job_for_playlist db now playlistId).2 now freshJobId
           playlistId userId totalTracks)) := by
  constructor
  · intro j hj huser
    unfold run_sort_schedule
    rw [active_some_snd db now playlistId j hj]
    simp only [huser, if_pos]
  · intro hother
    unfold run_sort_schedule
    cases hact : get_active_job_for_playlist db now playlistId with
    | mk optJ db' =>
      cases optJ with
      | none => simp
      | some j =>
        have hne : j.userId ≠ userId := hother j (by rw [hact])
        simp only [if_neg hne]

/-- Witness for C7's amended statement: the skip case (owner's own active
job) and the direct-creation case (owner at the user limit, no active job
on the target playlist). -/
theorem C7_scheduler_dispatch_amended_witness :
    ((get_active_job_for_playlist
        [⟨"j1", "p1", "u", .in_progress, 0, 0, none, 10, none, none⟩] 0 "p1").1 =
      some ⟨"j1", "p1", "u", .in_progress, 0, 0, none, 10, none, none⟩ ∧
     run_sort_schedule [⟨"j1", "p1", "u", .in_progress, 0, 0, none, 10, none, none⟩]
        0 "p1" "u" 11 "j9" 5 =
      (.skippedActive, [⟨"j1", "p1", "u", .in_progress, 0, 0, none, 10, none, none⟩])) ∧
    (run_sort_schedule
        [⟨"j1", "p1", "u", .in_progress, 0, 0, none, 10, none, none⟩,
         ⟨"j2", "p2", "u", .in_progress, 0, 0, none, 10, none, none⟩]
        0 "p3" "u" 11 "j3" 5 =
      (.submitted "j3" ⟨some "scheduled", some 11⟩,
       create_job
         [⟨"j1", "p1", "u", .in_progress, 0, 0, none, 10, none, none⟩,
          ⟨"j2", "p2", "u", .in_progress, 0, 0, none, 10, none, none⟩]
         0 "j3" "p3" "u" 5)) := by
  refine ⟨⟨by decide, ?_⟩, ?_⟩
  · exact (C7_scheduler_dispatch_amended _ 0 "p1" "u" 11 "j9" 5).1
      ⟨"j1", "p1", "u", .in_progress, 0, 0, none, 10, none, none⟩ (by decide) (by decide)
  · refine (C7_scheduler_dispatch_amended _ 0 "p3" "u" 11 "j3" 5).2 ?_
    intro j hj
    rw [show (get_active_job_for_playlist
        [⟨"j1", "p1", "u", .in_progress, 0, 0, none, 10, none, none⟩,
         ⟨"j2", "p2", "u", .in_progress, 0, 0, none, 10, none, none⟩] 0 "p3").1 = none
      from by decide] at hj
    exact absurd hj (by simp)

/-- C8. The startup sweep marks every pending/in-progress job failed with
the restart-interruption error text and sets its timestamps; afterwards no
job in the store is left in a non-terminal status. -/
theorem C8_restart_sweep (now : Nat) (db : List SortJob) :
    (∀ j ∈ db, (j.status = .pending ∨ j.status = .in_progress) →
      { j with status := .failed,
               error := some "Service restarted while job was running",
               message := some "Job interrupted by service restart",
               updatedAt := now, completedAt := some now } ∈
        recover_interrupted_jobs now db) ∧
    (∀ j' ∈ recover_interrupted_jobs now db,
      j'.status ≠ .pending ∧ j'.status ≠ .in_progress) := by
  constructor
  · intro j hj hact
    unfold recover_interrupted_jobs
    refine List.mem_map.2 ⟨j, hj, ?_⟩
    unfold recover_one
    rw [if_pos]
    rcases hact with h | h <;> simp [JobStatus.isActive, h]
  · intro j' hj'
    unfold recover_interrupted_jobs at hj'
    rcases List.mem_map.1 hj' with ⟨j, _, rfl⟩
    unfold recover_one
    by_cases h : j.status.isActive = true
    · rw [if_pos h]
      exact ⟨by simp, by simp⟩
    · rw [if_neg h]
      cases hs : j.status <;> simp_all [JobStatus.isActive]

/-- Witness for C8: one in-progress job across a simulated restart. -/
theorem C8_restart_sweep_witness :
    (⟨"j1", "p1", "u", .in_progress, 3, 3, none, 10, none, none⟩ ∈
      ([⟨"j1", "p1", "u", .in_progress, 3, 3, none, 10, none, none⟩] : List SortJob)) ∧
    (⟨"j1", "p1", "u", .failed, 3, 99, some 99, 10,
        some "Service restarted while job was running",
        some "Job interrupted by service restart"⟩ ∈
      recover_interrupted_jobs 99
        [⟨"j1", "p1", "u", .in_progress, 3, 3, none, 10, none, none⟩]) ∧
    (∀ j' ∈ recover_interrupted_jobs 99
        [⟨"j1", "p1", "u", .in_progress, 3, 3, none, 10, none, none⟩],
      j'.status ≠ .pending ∧ j'.status ≠ .in_progress) := by
  refine ⟨by decide, ?_, (C8_restart_sweep 99 _).2⟩
  exact (C8_restart_sweep 99 _).1
    ⟨"j1", "p1", "u", .in_progress, 3, 3, none, 10, none, none⟩ (by decide) (by decide)

/-! ### Calendar arithmetic for the scheduler -/

theorem daysInMonth_ge_28 (y m : Int) : 28 ≤ daysInMonth y m := by
  unfold daysInMonth
  split_ifs <;> omega

theorem daysInMonth_le_31 (y m : Int) : daysInMonth y m ≤ 31 := by
  unfold daysInMonth
  split_ifs <;> omega

theorem isLeap_iff (y : Int) :
    isLeap y = true ↔ (y % 4 = 0 ∧ (y % 100 ≠ 0 ∨ y % 400 = 0)) := by
  unfold isLeap
  simp

theorem isLeap_false_iff (y : Int) :
    isLeap y = false ↔ ¬(y % 4 = 0 ∧ (y % 100 ≠ 0 ∨ y % 400 = 0)) := by
  rw [← isLeap_iff]
  cases isLeap y <;> simp

theorem addDays1_valid {t : PyDateTime} (h : PyValid t) : PyValid (addDays1 t) := by
  obtain ⟨y, m, d, hr, mi⟩ := t
  unfold PyValid at h ⊢
  dsimp only at h ⊢
  obtain ⟨h1, h2, h3, h4, h5, h6, h7, h8⟩ := h
  unfold addDays1
  dsimp only
  split_ifs with ha hb <;> dsimp only
  · exact ⟨h1, h2, by omega, by simpa using ha, h5, h6, h7, h8⟩
  · refine ⟨by omega, by simpa using hb, by omega, ?_, h5, h6, h7, h8⟩
    have := daysInMonth_ge_28 y (m + 1)
    omega
  · refine ⟨by omega, by omega, by omega, ?_, h5, h6, h7, h8⟩
    have := daysInMonth_ge_28 (y + 1) 1
    omega

theorem subDays1_valid {t : PyDateTime} (h : PyValid t) : PyValid (subDays1 t) := by
  obtain ⟨y, m, d, hr, mi⟩ := t
  unfold PyValid at h ⊢
  dsimp only at h ⊢
  obtain ⟨h1, h2, h3, h4, h5, h6, h7, h8⟩ := h
  unfold subDays1
  dsimp only
  split_ifs with ha hb <;> dsimp only
  · refine ⟨h1, h2, by simpa using ha, by omega, h5, h6, h7, h8⟩
  · refine ⟨by simpa using hb, by omega, ?_, le_refl _, h5, h6, h7, h8⟩
    have := daysInMonth_ge_28 y (m - 1)
    omega
  · refine ⟨by omega, by omega, by omega, ?_, h5, h6, h7, h8⟩
    have h31 : daysInMonth (y - 1) 12 = 31 := by simp [daysInMonth]
    omega

theorem toOrdinal_addDays1 {t : PyDateTime} (h : PyValid t) :
    toOrdinal (addDays1 t).year (addDays1 t).month (addDays1 t).day =
      toOrdinal t.year t.month t.day + 1 := by
  obtain ⟨y, m, d, hr, mi⟩ := t
  unfold PyValid at h
  dsimp only at h
  obtain ⟨h1, h2, h3, h4, _, _, _, _⟩ := h
  unfold addDays1
  dsimp only
  split_ifs with ha hb
  · dsimp only at ha ⊢
    simp only [toOrdinal]
    omega
  · dsimp only at ha hb ⊢
    have hm : m ≤ 11 := by omega
    have hd : d = daysInMonth y m := by omega
    subst hd
    cases hl : isLeap y with
    | false =>
      interval_cases m <;>
        simp only [toOrdinal, daysBeforeMonth, daysInMonth, hl, Bool.and_false,
          Bool.and_true] <;>
        norm_num <;> omega
    | true =>
      interval_cases m <;>
        simp only [toOrdinal, daysBeforeMonth, daysInMonth, hl, Bool.and_false,
          Bool.and_true] <;>
        norm_num <;> omega
  · dsimp only at ha hb ⊢
    have hm12 : m = 12 := by omega
    subst hm12
    have h31 : daysInMonth y 12 = 31 := by simp [daysInMonth]
    have hd : d = 31 := by omega
    subst hd
    cases hl : isLeap y with
    | false =>
      have hp := (isLeap_false_iff y).1 hl
      simp only [toOrdinal, daysBeforeMonth, hl, Bool.and_false, Bool.and_true]
      norm_num
      omega
    | true =>
      have hp := (isLeap_iff y).1 hl
      simp only [toOrdinal, daysBeforeMonth, hl, Bool.and_false, Bool.and_true]
      norm_num
      omega

theorem addDays1_hour (t : PyDateTime) : (addDays1 t).hour = t.hour := by
  unfold addDays1
  split_ifs <;> rfl

theorem addDays1_minute (t : PyDateTime) : (addDays1 t).minute = t.minute := by
  unfold addDays1
  split_ifs <;> rfl

theorem subDays1_hour (t : PyDateTime) : (subDays1 t).hour = t.hour := by
  unfold subDays1
  split_ifs <;> rfl

theorem subDays1_minute (t : PyDateTime) : (subDays1 t).minute = t.minute := by
  unfold subDays1
  split_ifs <;> rfl

theorem addDays1_subDays1 {t : PyDateTime} (h : PyValid t) : addDays1 (subDays1 t) = t := by
  obtain ⟨y, m, d, hr, mi⟩ := t
  unfold PyValid at h
  dsimp only at h
  obtain ⟨h1, h2, h3, h4, _, _, _, _⟩ := h
  unfold subDays1
  dsimp only
  split_ifs with ha hb
  · unfold addDays1
    dsimp only
    rw [if_pos (by omega : d - 1 + 1 ≤ daysInMonth y m)]
    simp only [PyDateTime.mk.injEq, and_true, true_and]
    omega
  · unfold addDays1
    dsimp only
    rw [if_neg (by omega), if_pos (by omega)]
    simp only [PyDateTime.mk.injEq, and_true, true_and]
    omega
  · have h31 : daysInMonth (y - 1) 12 = 31 := by simp [daysInMonth]
    unfold addDays1
    dsimp only
    rw [if_neg (by omega), if_neg (by omega)]
    simp only [PyDateTime.mk.injEq, and_true, true_and]
    omega

theorem toOrdinal_subDays1 {t : PyDateTime} (h : PyValid t) :
    toOrdinal (subDays1 t).year (subDays1 t).month (subDays1 t).day =
      toOrdinal t.year t.month t.day - 1 := by
  have hv := subDays1_valid h
  have hstep := toOrdinal_addDays1 hv
  rw [addDays1_subDays1 h] at hstep
  omega

theorem addDaysN_spec : ∀ (n : Nat) (t : PyDateTime), PyValid t →
    PyValid (addDaysN n t) ∧
    (toOrdinal (addDaysN n t).year (addDaysN n t).month (addDaysN n t).day =
      toOrdinal t.year t.month t.day + n) ∧
    (addDaysN n t).hour = t.hour ∧ (addDaysN n t).minute = t.minute
  | 0, t, h => ⟨h, by simp [addDaysN], rfl, rfl⟩
  | n + 1, t, h => by
    have h1 := addDays1_valid h
    have hrec := addDaysN_spec n (addDays1 t) h1
    refine ⟨hrec.1, ?_, ?_, ?_⟩
    · show toOrdinal (addDaysN n (addDays1 t)).year (addDaysN n (addDays1 t)).month
        (addDaysN n (addDays1 t)).day = _
      rw [hrec.2.1, toOrdinal_addDays1 h]
      push_cast
      ring
    · show (addDaysN n (addDays1 t)).hour = _
      rw [hrec.2.2.1, addDays1_hour]
    · show (addDaysN n (addDays1 t)).minute = _
      rw [hrec.2.2.2, addDays1_minute]

theorem subDaysN_spec : ∀ (n : Nat) (t : PyDateTime), PyValid t →
    PyValid (subDaysN n t) ∧
    (toOrdinal (subDaysN n t).year (subDaysN n t).month (subDaysN n t).day =
      toOrdinal t.year t.month t.day - n) ∧
    (subDaysN n t).hour = t.hour ∧ (subDaysN n t).minute = t.minute
  | 0, t, h => ⟨h, by simp [subDaysN], rfl, rfl⟩
  | n + 1, t, h => by
    have h1 := subDays1_valid h
    have hrec := subDaysN_spec n (subDays1 t) h1
    refine ⟨hrec.1, ?_, ?_, ?_⟩
    · show toOrdinal (subDaysN n (subDays1 t)).year (subDaysN n (subDays1 t)).month
        (subDaysN n (subDays1 t)).day = _
      rw [hrec.2.1, toOrdinal_subDays1 h]
      push_cast
      ring
    · show (subDaysN n (subDays1 t)).hour = _
      rw [hrec.2.2.1, subDays1_hour]
    · show (subDaysN n (subDays1 t)).minute = _
      rw [hrec.2.2.2, subDays1_minute]

theorem shiftDays_spec (k : Int) (t : PyDateTime) (h : PyValid t) :
    PyValid (shiftDays k t) ∧
    (toOrdinal (shiftDays k t).year (shiftDays k t).month (shiftDays k t).day =
      toOrdinal t.year t.month t.day + k) ∧
    (shiftDays k t).hour = t.hour ∧ (shiftDays k t).minute = t.minute := by
  unfold shiftDays
  split_ifs with hk
  · have hs := addDaysN_spec k.toNat t h
    refine ⟨hs.1, ?_, hs.2.2⟩
    rw [hs.2.1, Int.toNat_of_nonneg hk]
  · have hs := subDaysN_spec (-k).toNat t h
    refine ⟨hs.1, ?_, hs.2.2⟩
    rw [hs.2.1]
    have : ((-k).toNat : Int) = -k := Int.toNat_of_nonneg (by omega)
    omega

theorem addMinutes_spec (m : Int) (t : PyDateTime) (h : PyValid t) :
    PyValid (addMinutes m t) ∧ absMinutes (addMinutes m t) = absMinutes t + m := by
  obtain ⟨y, mo, d, hr, mi⟩ := t
  have hv := h
  unfold PyValid at hv
  dsimp only at hv
  obtain ⟨h1, h2, h3, h4, h5, h6, h7, h8⟩ := hv
  unfold addMinutes
  dsimp only
  have hr0 : 0 ≤ (60 * hr + mi + m) % 1440 := Int.emod_nonneg _ (by norm_num)
  have hr1 : (60 * hr + mi + m) % 1440 < 1440 := Int.emod_lt_of_pos _ (by norm_num)
  have hdiv : 1440 * ((60 * hr + mi + m) / 1440) + (60 * hr + mi + m) % 1440 =
      60 * hr + mi + m := Int.ediv_add_emod _ _
  have hvalid' : PyValid ⟨y, mo, d, (60 * hr + mi + m) % 1440 / 60,
      (60 * hr + mi + m) % 1440 % 60⟩ := by
    unfold PyValid
    dsimp only
    refine ⟨h1, h2, h3, h4, by omega, by omega, by omega, by omega⟩
  have hs := shiftDays_spec ((60 * hr + mi + m) / 1440)
    ⟨y, mo, d, (60 * hr + mi + m) % 1440 / 60, (60 * hr + mi + m) % 1440 % 60⟩ hvalid'
  refine ⟨hs.1, ?_⟩
  unfold absMinutes
  rw [hs.2.1, hs.2.2.1, hs.2.2.2]
  dsimp only
  omega

theorem absMinutes_addDays1 {t : PyDateTime} (h : PyValid t) :
    absMinutes (addDays1 t) = absMinutes t + 1440 := by
  unfold absMinutes
  rw [toOrdinal_addDays1 h, addDays1_hour, addDays1_minute]
  ring

theorem absMinutes_addDaysN (n : Nat) {t : PyDateTime} (h : PyValid t) :
    absMinutes (addDaysN n t) = absMinutes t + 1440 * n := by
  have hs := addDaysN_spec n t h
  unfold absMinutes
  rw [hs.2.1, hs.2.2.1, hs.2.2.2]
  ring

theorem replace_time_valid {t : PyDateTime} (h : PyValid t) (hr : Int)
    (hh1 : 0 ≤ hr) (hh2 : hr ≤ 23) : PyValid { t with hour := hr, minute := 0 } := by
  obtain ⟨y, m, d, h0, mi⟩ := t
  unfold PyValid at h ⊢
  dsimp only at h ⊢
  obtain ⟨h1, h2, h3, h4, _, _, _, _⟩ := h
  exact ⟨h1, h2, h3, h4, hh1, hh2, by omega, by omega⟩

theorem replace_day_valid {t : PyDateTime} (h : PyValid t) (d : Int)
    (hd1 : 1 ≤ d) (hd2 : d ≤ 28) : PyValid { t with day := d } := by
  obtain ⟨y, m, dd, h0, mi⟩ := t
  unfold PyValid at h ⊢
  dsimp only at h ⊢
  obtain ⟨h1, h2, _, _, h5, h6, h7, h8⟩ := h
  have := daysInMonth_ge_28 y m
  exact ⟨h1, h2, hd1, by omega, h5, h6, h7, h8⟩

/-- Rolling to the following month strictly increases the ordinal past every
day of the current month. -/
theorem toOrdinal_next_month_gt (y m d0 d : Int) (h1 : 1 ≤ m) (h2 : m ≤ 12)
    (hd0 : d0 ≤ daysInMonth y m) (hd : 1 ≤ d) :
    toOrdinal y m d0 < toOrdinal (if m = 12 then y + 1 else y)
      (if m = 12 then 1 else m + 1) d := by
  by_cases hm : m = 12
  · subst hm
    rw [if_pos rfl, if_pos rfl]
    have h31 : daysInMonth y 12 = 31 := by simp [daysInMonth]
    cases hl : isLeap y with
    | false =>
      have hp := (isLeap_false_iff y).1 hl
      simp only [toOrdinal, daysBeforeMonth, hl, Bool.and_false, Bool.and_true]
      norm_num
      omega
    | true =>
      have hp := (isLeap_iff y).1 hl
      simp only [toOrdinal, daysBeforeMonth, hl, Bool.and_false, Bool.and_true]
      norm_num
      omega
  · rw [if_neg hm, if_neg hm]
    have hm11 : m ≤ 11 := by omega
    cases hl : isLeap y with
    | false =>
      interval_cases m <;>
        simp only [toOrdinal, daysBeforeMonth, daysInMonth, hl, Bool.and_false,
          Bool.and_true] at hd0 ⊢ <;>
        norm_num at hd0 ⊢ <;> omega
    | true =>
      interval_cases m <;>
        simp only [toOrdinal, daysBeforeMonth, daysInMonth, hl, Bool.and_false,
          Bool.and_true] at hd0 ⊢ <;>
        norm_num at hd0 ⊢ <;> omega

theorem daily_next_gt (target0 baseLocal : PyDateTime) (ht0 : PyValid target0)
    (hnear : absMinutes baseLocal - 1440 < absMinutes target0) :
    PyValid (daily_next target0 baseLocal) ∧
      absMinutes baseLocal < absMinutes (daily_next target0 baseLocal) := by
  unfold daily_next
  by_cases hc : dtLe target0 baseLocal = true
  · rw [if_pos hc]
    refine ⟨addDays1_valid ht0, ?_⟩
    rw [absMinutes_addDays1 ht0]
    omega
  · rw [if_neg hc]
    refine ⟨ht0, ?_⟩
    unfold dtLe at hc
    simp only [decide_eq_true_eq] at hc
    omega

theorem weekly_next_gt (dow : String) (target0 baseLocal : PyDateTime)
    (ht0 : PyValid target0)
    (hnear : absMinutes baseLocal - 1440 < absMinutes target0) :
    PyValid (weekly_next dow target0 baseLocal) ∧
      absMinutes baseLocal < absMinutes (weekly_next dow target0 baseLocal) := by
  simp only [weekly_next]
  have hk0 : 0 ≤ (dow_map dow - pyWeekday target0) % 7 :=
    Int.emod_nonneg _ (by norm_num)
  have hk6 : (dow_map dow - pyWeekday target0) % 7 < 7 :=
    Int.emod_lt_of_pos _ (by norm_num)
  by_cases hc : ((dow_map dow - pyWeekday target0) % 7 = 0 &&
      dtLe target0 baseLocal) = true
  · rw [if_pos hc]
    refine ⟨(addDaysN_spec _ _ ht0).1, ?_⟩
    rw [absMinutes_addDaysN _ ht0]
    norm_num
    omega
  · rw [if_neg hc]
    refine ⟨(addDaysN_spec _ _ ht0).1, ?_⟩
    rw [absMinutes_addDaysN _ ht0]
    simp only [Bool.and_eq_true, decide_eq_true_eq, not_and] at hc
    by_cases hz : (dow_map dow - pyWeekday target0) % 7 = 0
    · have hdt := hc hz
      unfold dtLe at hdt
      simp only [decide_eq_true_eq] at hdt
      omega
    · have h1k : 1 ≤ (dow_map dow - pyWeekday target0) % 7 := by omega
      have h1k' : 1 ≤ ((dow_map dow - pyWeekday target0) % 7).toNat := by omega
      omega

theorem monthly_next_gt (dom : Int) (target0 baseLocal : PyDateTime)
    (ht0 : PyValid target0) (hbl : PyValid baseLocal)
    (hy : target0.year = baseLocal.year) (hm : target0.month = baseLocal.month) :
    PyValid (monthly_next dom target0 baseLocal) ∧
      absMinutes baseLocal < absMinutes (monthly_next dom target0 baseLocal) := by
  simp only [monthly_next]
  have hd1 : 1 ≤ max 1 (min dom 28) := le_max_left 1 (min dom 28)
  have hd2 : max 1 (min dom 28) ≤ 28 := max_le (by norm_num) (min_le_right dom 28)
  have hcond1 : (1 ≤ max 1 (min dom 28) &&
      max 1 (min dom 28) ≤ daysInMonth target0.year target0.month) = true := by
    simp only [Bool.and_eq_true, decide_eq_true_eq]
    exact ⟨hd1, le_trans hd2 (daysInMonth_ge_28 _ _)⟩
  rw [if_pos hcond1]
  have hcv : PyValid { target0 with day := max 1 (min dom 28) } :=
    replace_day_valid ht0 _ hd1 hd2
  by_cases hc : dtLe { target0 with day := max 1 (min dom 28) } baseLocal = true
  · rw [if_pos hc]
    have hcond2 : (1 ≤ max 1 (min dom 28) && max 1 (min dom 28) ≤
        daysInMonth (if target0.month = 12 then target0.year + 1 else target0.year)
          (if target0.month = 12 then 1 else target0.month + 1)) = true := by
      simp only [Bool.and_eq_true, decide_eq_true_eq]
      exact ⟨hd1, le_trans hd2 (daysInMonth_ge_28 _ _)⟩
    rw [if_pos hcond2]
    obtain ⟨ty, tm, td, th, tmi⟩ := target0
    obtain ⟨bly, blm, bld, blh, blmi⟩ := baseLocal
    dsimp only at hy hm ⊢
    subst hy
    subst hm
    unfold PyValid at ht0 hbl
    dsimp only at ht0 hbl
    obtain ⟨ht1, ht2, ht3, ht4, ht5, ht6, ht7, ht8⟩ := ht0
    obtain ⟨hb1, hb2, hb3, hb4, hb5, hb6, hb7, hb8⟩ := hbl
    have hord := toOrdinal_next_month_gt ty tm bld (max 1 (min dom 28))
      ht1 ht2 hb4 hd1
    constructor
    · unfold PyValid
      dsimp only
      refine ⟨?_, ?_, hd1, le_trans hd2 (daysInMonth_ge_28 _ _), ht5, ht6, ht7, ht8⟩
      · by_cases h12 : tm = 12 <;> simp [h12] <;> omega
      · by_cases h12 : tm = 12 <;> simp [h12] <;> omega
    · unfold absMinutes
      dsimp only
      omega
  · rw [if_neg hc]
    refine ⟨hcv, ?_⟩
    unfold dtLe at hc
    simp only [decide_eq_true_eq] at hc
    omega

/-- C10 (implicit). For every schedule whose recurrence type is daily,
weekly or monthly — any `hour_of_day`, `day_of_week`, `day_of_month` and
timezone offset — whenever `_compute_next_run` produces a value at all (it
raises for an out-of-range hour), that value is strictly after the base
time it was given, so `mark_run`'s recomputation never yields a next run at
or before now. -/
theorem C10_next_run_strictly_after (p : ScheduleParams) (base : PyDateTime)
    (hvalid : PyValid base)
    (htype : p.schedule_type = "daily" ∨ p.schedule_type = "weekly" ∨
      p.schedule_type = "monthly")
    (t : PyDateTime) (hres : compute_next_run p base = some t) :
    absMinutes base < absMinutes t := by
  simp only [compute_next_run] at hres
  split at hres
  · exact absurd hres (by simp)
  · next hhour =>
    rw [Option.some.injEq] at hres
    subst hres
    have hh : 0 ≤ p.hour_of_day ∧ p.hour_of_day ≤ 23 := by
      simp only [Bool.or_eq_true, decide_eq_true_eq, not_or] at hhour
      omega
    have hbl := addMinutes_spec p.timezone_offset_minutes base hvalid
    have ht0v : PyValid { addMinutes p.timezone_offset_minutes base with
        hour := p.hour_of_day, minute := 0 } :=
      replace_time_valid hbl.1 p.hour_of_day hh.1 hh.2
    have hnear : absMinutes (addMinutes p.timezone_offset_minutes base) - 1440 <
        absMinutes { addMinutes p.timezone_offset_minutes base with
          hour := p.hour_of_day, minute := 0 } := by
      obtain ⟨hv1, hv2, hv3, hv4, hv5, hv6, hv7, hv8⟩ := hbl.1
      unfold absMinutes
      dsimp only
      omega
    rcases htype with hty | hty | hty
    · rw [hty, if_pos rfl]
      have hd := daily_next_gt _ _ ht0v hnear
      have hfin := addMinutes_spec (-p.timezone_offset_minutes) _ hd.1
      rw [hfin.2]
      omega
    · rw [hty, if_neg (by decide), if_pos rfl]
      have hd := weekly_next_gt p.day_of_week _ _ ht0v hnear
      have hfin := addMinutes_spec (-p.timezone_offset_minutes) _ hd.1
      rw [hfin.2]
      omega
    · rw [hty, if_neg (by decide), if_neg (by decide), if_pos rfl]
      have hd := monthly_next_gt p.day_of_month _ _ ht0v hbl.1 rfl rfl
      have hfin := addMinutes_spec (-p.timezone_offset_minutes) _ hd.1
      rw [hfin.2]
      omega

/-- Witness for C10 at a concrete weekly schedule with a nonzero timezone
offset whose anchor hour has already passed. -/
theorem C10_next_run_strictly_after_witness :
    PyValid ⟨2024, 1, 1, 23, 0⟩ ∧
    compute_next_run
      { schedule_type := "weekly", hour_of_day := 9, day_of_week := "tue",
        timezone_offset_minutes := 120 } ⟨2024, 1, 1, 23, 0⟩ =
      some ⟨2024, 1, 2, 7, 0⟩ ∧
    absMinutes ⟨2024, 1, 1, 23, 0⟩ < absMinutes ⟨2024, 1, 2, 7, 0⟩ := by
  refine ⟨by decide, by decide, ?_⟩
  exact C10_next_run_strictly_after
    { schedule_type := "weekly", hour_of_day := 9, day_of_week := "tue",
      timezone_offset_minutes := 120 } ⟨2024, 1, 1, 23, 0⟩ (by decide)
    (Or.inr (Or.inl rfl)) ⟨2024, 1, 2, 7, 0⟩ (by decide)

/-- C6. The three recurrence vectors of the spec: daily at 09:00 from
2024-01-01T23:00Z gives 2024-01-02T09:00Z; weekly targeting the current
weekday (Monday 2024-01-01) at an already-passed hour gives exactly seven
days later at that hour; monthly with `day_of_month = 31` in a 30-day month
(April 2024) clamps the anchor day to 28. -/
theorem C6_compute_next_run_vectors :
    compute_next_run { schedule_type := "daily", hour_of_day := 9 }
        ⟨2024, 1, 1, 23, 0⟩ = some ⟨2024, 1, 2, 9, 0⟩ ∧
    compute_next_run { schedule_type := "weekly", hour_of_day := 9, day_of_week := "mon" }
        ⟨2024, 1, 1, 23, 0⟩ = some ⟨2024, 1, 8, 9, 0⟩ ∧
    compute_next_run { schedule_type := "monthly", hour_of_day := 9, day_of_month := 31 }
        ⟨2024, 4, 10, 12, 0⟩ = some ⟨2024, 4, 28, 9, 0⟩ :=
  ⟨by decide, by decide, by decide⟩
